import Mathlib

/-!
Verification development for the reactor runtime of this repository:
the growable I/O buffer with descriptor slots (util-io.cpp), the
intrusive doubly linked list (util-list.cpp), and the source/sink
readiness reactor (util-sources.cpp).  Each definition is a shallow
embedding of the corresponding C function; machine details that the
properties do not depend on (raw pointers, allocation addresses) are
abstracted, while all control flow, field updates and error codes are
kept exactly as in the source.
-/

/-! ## The iobuf byte buffer (util-io.cpp)

`struct iobuf` holds `sz` allocated bytes of which `len` are used, plus
a fixed array `int fds[32]`.  We model the used bytes as a list (`len`
is its length) and the fd array as a list of 32 machine integers. -/

def ENOMEM : Int := 12

def EAGAIN : Int := 11

structure iobuf where
  sz : Nat
  data : List Nat
  fds : List Int
deriving DecidableEq

/-- `iobuf_len`: the count of data bytes in this buffer. -/
def iobuf_len (buf : iobuf) : Nat := buf.data.length

/-- `iobuf_new(size)`: `sz := size`, `len := 0`, every fd slot `-1`. -/
def iobuf_new (size : Nat) : iobuf :=
  { sz := size, data := [], fds := List.replicate 32 (-1) }

/-- `iobuf_resize(buf, to_size)`: realloc the byte storage; the used
bytes are preserved by the realloc contract and `sz := to_size`. -/
def iobuf_resize (buf : iobuf) (to_size : Nat) : iobuf :=
  { buf with sz := to_size }

/-- `iobuf_extend(buf, extra)`: grow to `len + extra` if that exceeds
the current allocation. -/
def iobuf_extend (buf : iobuf) (extra : Nat) : iobuf :=
  if buf.data.length + extra > buf.sz then iobuf_resize buf (buf.data.length + extra)
  else buf

/-- `iobuf_append(buf, data, len)`: no-op for `len == 0`, else extend
and copy the bytes after the current contents. -/
def iobuf_append (buf : iobuf) (chunk : List Nat) : iobuf :=
  if chunk.length = 0 then buf
  else
    let b := iobuf_extend buf chunk.length
    { b with data := b.data ++ chunk }

/-- `iobuf_prepend(buf, data, len)`: no-op for `len == 0`, else resize
if needed, shift the existing bytes right and copy the new bytes to the
front. -/
def iobuf_prepend (buf : iobuf) (chunk : List Nat) : iobuf :=
  if chunk.length = 0 then buf
  else
    let b := if buf.data.length + chunk.length > buf.sz then
               iobuf_resize buf (buf.data.length + chunk.length)
             else buf
    { b with data := chunk ++ b.data }

/-- `iobuf_take_data(buf)`: hand the byte storage to the caller, then
`data := NULL; len := 0; iobuf_resize(buf, buf->sz)` (a fresh allocation
of the buffer's current `sz`). -/
def iobuf_take_data (buf : iobuf) : List Nat × iobuf :=
  (buf.data, iobuf_resize { buf with data := [] } buf.sz)

/-- `iobuf_take_fd(buf)`: return `fds[0]`; when it is not `-1`, shift
slots `1..31` down one position (slot 31 keeps its old value). -/
def iobuf_take_fd (buf : iobuf) : Int × iobuf :=
  let fd := buf.fds.headD (-1)
  if fd = -1 then (fd, buf)
  else (fd, { buf with fds := buf.fds.tail ++ [buf.fds.getLastD (-1)] })

/-- Index of the first `-1` slot among the first `fuel` entries, the
scan `for (idx = 0; idx < ARRAY_LENGTH(fds) - 1; idx++)` of
`iobuf_append_fd` (the fuel is 31, so slot 31 is never examined). -/
def firstFreeIdx : List Int → Nat → Option Nat
  | _, 0 => none
  | [], _ + 1 => none
  | f :: rest, k + 1 =>
    if f = -1 then some 0
    else Option.map (fun i => i + 1) (firstFreeIdx rest k)

/-- `iobuf_append_fd(buf, fd)`: find the first free slot among slots
`0..30`; if none, fail with `-ENOMEM` without calling `dup`.  Otherwise
call `dup(fd)` — modelled by the oracle pair `dupResult`/`dupErrno` —
and on success store the duplicate in that slot.  The third component
records whether `dup` was invoked. -/
def iobuf_append_fd (buf : iobuf) (dupResult dupErrno : Int) : Int × iobuf × Bool :=
  match firstFreeIdx buf.fds 31 with
  | some idx =>
      if dupResult = -1 then (-dupErrno, buf, true)
      else (0, { buf with fds := buf.fds.set idx dupResult }, true)
  | none => (-ENOMEM, buf, false)

/-! ### Sequences of append/prepend operations (claim C4) -/

inductive BufOp where
  | app (chunk : List Nat)
  | pre (chunk : List Nat)

def runBufOps (buf : iobuf) : List BufOp → iobuf
  | [] => buf
  | BufOp.app c :: rest => runBufOps (iobuf_append buf c) rest
  | BufOp.pre c :: rest => runBufOps (iobuf_prepend buf c) rest

/-- Appended chunks, concatenated in call order. -/
def appendsConcat : List BufOp → List Nat
  | [] => []
  | BufOp.app c :: rest => c ++ appendsConcat rest
  | BufOp.pre _ :: rest => appendsConcat rest

/-- Prepended chunks, concatenated in reverse call order. -/
def prependsConcat : List BufOp → List Nat
  | [] => []
  | BufOp.app _ :: rest => prependsConcat rest
  | BufOp.pre c :: rest => prependsConcat rest ++ c

/-- Total number of bytes passed to the operations. -/
def opsLen : List BufOp → Nat
  | [] => 0
  | BufOp.app c :: rest => c.length + opsLen rest
  | BufOp.pre c :: rest => c.length + opsLen rest

lemma iobuf_append_data (buf : iobuf) (c : List Nat) :
    (iobuf_append buf c).data = buf.data ++ c := by
  unfold iobuf_append iobuf_extend iobuf_resize
  by_cases h : c.length = 0
  · rw [List.length_eq_zero] at h
    subst h
    simp
  · simp only [if_neg h]
    by_cases hg : buf.data.length + c.length > buf.sz <;> simp [hg]

lemma iobuf_prepend_data (buf : iobuf) (c : List Nat) :
    (iobuf_prepend buf c).data = c ++ buf.data := by
  unfold iobuf_prepend iobuf_resize
  by_cases h : c.length = 0
  · rw [List.length_eq_zero] at h
    subst h
    simp
  · simp only [if_neg h]
    by_cases hg : buf.data.length + c.length > buf.sz <;> simp [hg]

lemma runBufOps_data (ops : List BufOp) :
    ∀ buf : iobuf,
      (runBufOps buf ops).data = prependsConcat ops ++ buf.data ++ appendsConcat ops := by
  induction ops with
  | nil => intro buf; simp [runBufOps, prependsConcat, appendsConcat]
  | cons op rest ih =>
    intro buf
    cases op with
    | app c =>
      simp only [runBufOps, prependsConcat, appendsConcat]
      rw [ih, iobuf_append_data]
      simp [List.append_assoc]
    | pre c =>
      simp only [runBufOps, prependsConcat, appendsConcat]
      rw [ih, iobuf_prepend_data]
      simp [List.append_assoc]

lemma appendsConcat_add_prependsConcat_length (ops : List BufOp) :
    (prependsConcat ops).length + (appendsConcat ops).length = opsLen ops := by
  induction ops with
  | nil => simp [prependsConcat, appendsConcat, opsLen]
  | cons op rest ih =>
    cases op with
    | app c => simp [prependsConcat, appendsConcat, opsLen]; omega
    | pre c => simp [prependsConcat, appendsConcat, opsLen]; omega

/-- C4: for every sequence of `iobuf_append`/`iobuf_prepend` calls, the
final byte contents are the prepended chunks in reverse call order,
then the initial contents, then the appended chunks in call order — so
growth preserves all existing bytes — and the final length is the
initial length plus the sum of all chunk lengths (for a fresh buffer,
exactly the sum of the appended and prepended lengths). -/
theorem iobuf_append_prepend_contents (buf : iobuf) (ops : List BufOp) (cap : Nat) :
    (runBufOps buf ops).data = prependsConcat ops ++ buf.data ++ appendsConcat ops
    ∧ iobuf_len (runBufOps buf ops) = iobuf_len buf + opsLen ops
    ∧ (runBufOps (iobuf_new cap) ops).data = prependsConcat ops ++ appendsConcat ops
    ∧ iobuf_len (runBufOps (iobuf_new cap) ops) = opsLen ops := by
  have h1 := runBufOps_data ops buf
  have h2 := runBufOps_data ops (iobuf_new cap)
  refine ⟨h1, ?_, ?_, ?_⟩
  · unfold iobuf_len
    rw [h1]
    simp [List.length_append]
    have := appendsConcat_add_prependsConcat_length ops
    omega
  · rw [h2]; simp [iobuf_new]
  · unfold iobuf_len
    rw [h2]
    simp [iobuf_new, List.length_append]
    have := appendsConcat_add_prependsConcat_length ops
    omega

/-! ### Claim C8: what `iobuf_take_data` resets the capacity to.

The code resizes the fresh storage to the buffer's *current* `sz`, not
to the capacity chosen at `iobuf_new`; after the buffer has grown the
two differ. -/

/-- C8 counterexample: a buffer created with capacity 10 that grew to
20 bytes is reset by `iobuf_take_data` to capacity 20, not to its
original capacity 10 — refuting the claim that the fresh empty state
has the capacity chosen at `iobuf_new`. -/
theorem iobuf_take_data_counterexample :
    (iobuf_new 10).sz = 10
    ∧ (iobuf_take_data (iobuf_append (iobuf_new 10) (List.replicate 20 7))).2.sz = 20
    ∧ ¬ (iobuf_take_data (iobuf_append (iobuf_new 10) (List.replicate 20 7))).2.sz = 10 := by
  refine ⟨rfl, by decide, by decide⟩

/-! ### The descriptor queue (claims C2 and C3)

A buffer whose fd array holds the queue `q` (all entries distinct from
the `-1` sentinel) followed by sentinel padding out to the 32 slots. -/

def mkfds (base : iobuf) (q : List Int) : iobuf :=
  { base with fds := q ++ List.replicate (32 - q.length) (-1) }

lemma firstFreeIdx_all_used :
    ∀ (k : Nat) (q rest : List Int), (∀ x ∈ q, x ≠ -1) → k ≤ q.length →
      firstFreeIdx (q ++ rest) k = none := by
  intro k
  induction k with
  | zero => intro q rest _ _; cases q <;> simp [firstFreeIdx]
  | succ k ih =>
    intro q rest hq hk
    cases q with
    | nil => simp at hk
    | cons x q' =>
      have hx : x ≠ -1 := hq x (by simp)
      simp only [List.cons_append, firstFreeIdx, if_neg hx, List.append_eq]
      rw [ih q' rest (fun y hy => hq y (by simp [hy])) (by simpa using hk)]
      rfl

lemma firstFreeIdx_found :
    ∀ (q : List Int) (k : Nat) (rest : List Int), (∀ x ∈ q, x ≠ -1) → q.length < k →
      firstFreeIdx (q ++ (-1 :: rest)) k = some q.length := by
  intro q
  induction q with
  | nil =>
    intro k rest _ hk
    cases k with
    | zero => omega
    | succ k => simp [firstFreeIdx]
  | cons x q' ih =>
    intro k rest hq hk
    cases k with
    | zero => omega
    | succ k =>
      have hx : x ≠ -1 := hq x (by simp)
      simp only [List.cons_append, firstFreeIdx, if_neg hx, List.append_eq]
      rw [ih k rest (fun y hy => hq y (by simp [hy])) (by simpa using hk)]
      rfl

lemma set_pad (q : List Int) (m : Nat) (f : Int) :
    (q ++ List.replicate (m + 1) (-1)).set q.length f = q ++ f :: List.replicate m (-1) := by
  induction q with
  | nil => simp [List.replicate_succ]
  | cons x q' ih => simp [List.set, ih]

lemma getLastD_pad (l : List Int) (k : Nat) (d : Int) :
    (l ++ List.replicate (k + 1) (-1)).getLastD d = -1 := by
  rw [List.replicate_succ']
  rw [show l ++ (List.replicate k (-1) ++ [-1]) = (l ++ List.replicate k (-1)) ++ [-1] by
    simp [List.append_assoc]]
  simp

lemma append_fd_full (base : iobuf) (q : List Int) (f e : Int)
    (hq : ∀ x ∈ q, x ≠ -1) (hlen : q.length = 31) :
    iobuf_append_fd (mkfds base q) f e = (-ENOMEM, mkfds base q, false) := by
  unfold iobuf_append_fd
  rw [show (mkfds base q).fds = q ++ List.replicate (32 - q.length) (-1) from rfl]
  rw [firstFreeIdx_all_used 31 q _ hq (by omega)]

lemma append_fd_free (base : iobuf) (q : List Int) (f e : Int)
    (hq : ∀ x ∈ q, x ≠ -1) (hlen : q.length < 31) (hf : f ≠ -1) :
    iobuf_append_fd (mkfds base q) f e = (0, mkfds base (q ++ [f]), true) := by
  unfold iobuf_append_fd
  have hpad : 32 - q.length = (31 - q.length - 1) + 1 + 1 := by omega
  have hfds : (mkfds base q).fds = q ++ (-1 :: (-1 :: List.replicate (31 - q.length - 1) (-1))) := by
    show q ++ List.replicate (32 - q.length) (-1) = _
    rw [hpad, List.replicate_succ, List.replicate_succ]
  rw [hfds, firstFreeIdx_found q 31 _ hq hlen]
  simp only [if_neg (by exact fun h => absurd h hf)]
  have hset : (q ++ (-1 :: (-1 :: List.replicate (31 - q.length - 1) (-1)))).set q.length f
      = (q ++ [f]) ++ List.replicate (32 - (q ++ [f]).length) (-1) := by
    have h1 : (-1 : Int) :: (-1 :: List.replicate (31 - q.length - 1) (-1))
        = List.replicate ((31 - q.length - 1) + 1 + 1) (-1) := by
      rw [List.replicate_succ, List.replicate_succ]
    rw [h1, show (31 - q.length - 1) + 1 + 1 = ((31 - q.length - 1) + 1) + 1 from rfl,
        set_pad q ((31 - q.length - 1) + 1) f]
    have h2 : 32 - (q ++ [f]).length = (31 - q.length - 1) + 1 := by
      simp [List.length_append]; omega
    rw [h2, List.replicate_succ]
    simp
  rw [hset]
  rfl

lemma take_fd_nil (base : iobuf) :
    iobuf_take_fd (mkfds base []) = (-1, mkfds base []) := by
  unfold iobuf_take_fd mkfds
  simp [List.replicate]

lemma take_fd_cons (base : iobuf) (x : Int) (q : List Int)
    (hx : x ≠ -1) (hlen : q.length + 1 ≤ 31) :
    iobuf_take_fd (mkfds base (x :: q)) = (x, mkfds base q) := by
  unfold iobuf_take_fd
  have hfds : (mkfds base (x :: q)).fds
      = x :: (q ++ List.replicate ((31 - q.length - 1) + 1) (-1)) := by
    show (x :: q) ++ List.replicate (32 - (x :: q).length) (-1) = _
    have : 32 - (x :: q).length = (31 - q.length - 1) + 1 := by simp; omega
    rw [this]
    rfl
  rw [hfds]
  simp only [List.headD_cons, if_neg hx, List.tail_cons]
  rw [List.getLastD_cons, getLastD_pad]
  have : (q ++ List.replicate (31 - q.length - 1 + 1) (-1)) ++ [(-1 : Int)]
      = q ++ List.replicate (32 - q.length) (-1) := by
    rw [List.append_assoc, show List.replicate (31 - q.length - 1 + 1) (-1) ++ [(-1 : Int)]
        = List.replicate (31 - q.length - 1 + 1 + 1) (-1) from (List.replicate_succ' _ _).symm]
    have : 31 - q.length - 1 + 1 + 1 = 32 - q.length := by omega
    rw [this]
  rw [this]
  rfl

/-- Take `n` descriptors in sequence, collecting the returned values. -/
def takeFdN (buf : iobuf) : Nat → List Int × iobuf
  | 0 => ([], buf)
  | n + 1 =>
    let r := iobuf_take_fd buf
    let r2 := takeFdN r.2 n
    (r.1 :: r2.1, r2.2)

/-- Append the descriptors `fs` in sequence (each `f` standing for the
value `dup` returned for that call), collecting the return codes. -/
def appendFdAll (buf : iobuf) (e : Int) : List Int → List Int × iobuf
  | [] => ([], buf)
  | f :: rest =>
    let r := iobuf_append_fd buf f e
    let r2 := appendFdAll r.2.1 e rest
    (r.1 :: r2.1, r2.2)

lemma takeFdN_repr (base : iobuf) :
    ∀ (n : Nat) (q : List Int), (∀ x ∈ q, x ≠ -1) → q.length ≤ 31 →
      takeFdN (mkfds base q) n
        = (q.take n ++ List.replicate (n - q.length) (-1), mkfds base (q.drop n)) := by
  intro n
  induction n with
  | zero => intro q _ _; simp [takeFdN]
  | succ n ih =>
    intro q hq hlen
    cases q with
    | nil =>
      simp only [takeFdN, take_fd_nil]
      rw [ih [] (by simp) (by simp)]
      simp [List.replicate_succ]
    | cons x q' =>
      have hx : x ≠ -1 := hq x (by simp)
      simp only [takeFdN, take_fd_cons base x q' hx (by simpa using hlen)]
      rw [ih q' (fun y hy => hq y (by simp [hy])) (by simp at hlen; omega)]
      simp

lemma appendFdAll_repr (base : iobuf) (e : Int) :
    ∀ (fs q : List Int), (∀ x ∈ q, x ≠ -1) → (∀ x ∈ fs, x ≠ -1) →
      q.length + fs.length ≤ 31 →
      appendFdAll (mkfds base q) e fs
        = (List.replicate fs.length 0, mkfds base (q ++ fs)) := by
  intro fs
  induction fs with
  | nil => intro q _ _ _; simp [appendFdAll]
  | cons f fs' ih =>
    intro q hq hfs hlen
    have hf : f ≠ -1 := hfs f (by simp)
    simp only [appendFdAll,
      append_fd_free base q f e hq (by simp at hlen; omega) hf]
    rw [ih (q ++ [f])
        (by intro y hy; rcases List.mem_append.mp hy with h | h
            · exact hq y h
            · simp at h; subst h; exact hf)
        (fun y hy => hfs y (by simp [hy]))
        (by simp at hlen ⊢; omega)]
    simp [List.replicate_succ, List.append_assoc]

/-- C2: with all 31 usable descriptor slots occupied, a further
`iobuf_append_fd` fails with `-ENOMEM`, does not call `dup`, and
leaves the buffer — descriptor queue, byte contents and length —
completely unchanged.  With fewer than 31 occupied, the duplicated
descriptor goes into the first free slot, and (for any buffer at all)
slot 31, the terminating sentinel slot, is never written. -/
theorem iobuf_append_fd_exhaustion (base : iobuf) (q : List Int) (f e : Int)
    (hq : ∀ x ∈ q, x ≠ -1) :
    (q.length = 31 →
      iobuf_append_fd (mkfds base q) f e = (-ENOMEM, mkfds base q, false))
    ∧ (q.length < 31 → f ≠ -1 →
      iobuf_append_fd (mkfds base q) f e = (0, mkfds base (q ++ [f]), true))
    ∧ (∀ buf : iobuf, (iobuf_append_fd buf f e).2.1.fds[31]? = buf.fds[31]?) := by
  refine ⟨fun h => append_fd_full base q f e hq h,
          fun h hf => append_fd_free base q f e hq h hf, ?_⟩
  intro buf
  unfold iobuf_append_fd
  cases hidx : firstFreeIdx buf.fds 31 with
  | none => rfl
  | some idx =>
    have hlt : ∀ (l : List Int) (k i : Nat), firstFreeIdx l k = some i → i < k := by
      intro l
      induction l with
      | nil => intro k i h; cases k <;> simp [firstFreeIdx] at h
      | cons x l' ih =>
        intro k i h
        cases k with
        | zero => simp [firstFreeIdx] at h
        | succ k =>
          simp only [firstFreeIdx] at h
          by_cases hx : x = -1
          · rw [if_pos hx] at h
            simp at h
            omega
          · rw [if_neg hx] at h
            cases h2 : firstFreeIdx l' k with
            | none => rw [h2] at h; simp at h
            | some j =>
              rw [h2] at h
              simp at h
              have := ih k j h2
              omega
    have hix : idx < 31 := hlt buf.fds 31 idx hidx
    by_cases hd : f = -1
    · simp [hd]
    · simp only [if_neg hd]
      exact List.getElem?_set_ne (by omega)

/-- C3: after any sequence of successful `iobuf_append_fd` calls on a
fresh buffer, `iobuf_take_fd` returns the stored descriptors in FIFO
(first-appended, first-returned) order, and once the queue is empty
every further call returns the `-1` sentinel, no matter how often it is
repeated. -/
theorem iobuf_fd_queue_fifo (cap : Nat) (fs : List Int) (e : Int)
    (hfs : ∀ x ∈ fs, x ≠ -1) (hlen : fs.length ≤ 31) :
    (appendFdAll (iobuf_new cap) e fs).1 = List.replicate fs.length 0
    ∧ ∀ n : Nat, takeFdN (appendFdAll (iobuf_new cap) e fs).2 n
        = (fs.take n ++ List.replicate (n - fs.length) (-1),
           mkfds (iobuf_new cap) (fs.drop n)) := by
  have hnew : iobuf_new cap = mkfds (iobuf_new cap) [] := by
    unfold iobuf_new mkfds
    rfl
  rw [hnew, appendFdAll_repr (iobuf_new cap) e fs [] (by simp) hfs (by simpa using hlen)]
  refine ⟨rfl, fun n => ?_⟩
  exact takeFdN_repr (iobuf_new cap) n fs hfs (by simpa using hlen)

/-- C2 witness: a queue of 31 descriptors rejects one more with
`-ENOMEM` and is unchanged; a queue of one descriptor accepts a second
into the first free slot. -/
theorem iobuf_append_fd_exhaustion_witness :
    iobuf_append_fd (mkfds (iobuf_new 4) (List.replicate 31 5)) 9 0
        = (-ENOMEM, mkfds (iobuf_new 4) (List.replicate 31 5), false)
    ∧ iobuf_append_fd (mkfds (iobuf_new 4) [7]) 9 0
        = (0, mkfds (iobuf_new 4) [7, 9], true) := by
  refine ⟨(iobuf_append_fd_exhaustion (iobuf_new 4) (List.replicate 31 5) 9 0
            (by decide)).1 (by decide),
          (iobuf_append_fd_exhaustion (iobuf_new 4) [7] 9 0 (by decide)).2.1
            (by decide) (by decide)⟩

/-- C3 witness: appending 3, 4, 5 then taking five times returns
3, 4, 5, -1, -1 in that order. -/
theorem iobuf_fd_queue_fifo_witness :
    takeFdN (appendFdAll (iobuf_new 4) 0 [3, 4, 5]).2 5
      = ([3, 4, 5, -1, -1], mkfds (iobuf_new 4) []) := by
  have h := (iobuf_fd_queue_fifo 4 [3, 4, 5] 0 (by decide) (by decide)).2 5
  simpa using h

/-! ### `iobuf_append_from_fd` (claim C5)

The call drains a non-blocking descriptor through a fixed 1024-byte
stack chunk.  We model the descriptor as an oracle list of read
results: `ReadRes.ok d` stands for `xread` returning `d.length` bytes
(`0` meaning end-of-stream, with `d.length ≤ 1024` always), and
`ReadRes.err e` for `xread` returning the negative errno `-e`
(`e > 0`). -/

inductive ReadRes where
  | ok (d : List Nat)
  | err (e : Int)

/-- The final `return nread == 0 ? rc : (int)nread` of the C function. -/
def finalRet (nread : Nat) (rc : Int) (buf : iobuf) : Int × iobuf :=
  (if nread = 0 then rc else (nread : Int), buf)

/-- The do/while loop of `iobuf_append_from_fd`: break on `rc == 0` or
`rc == -EAGAIN`, return immediately on any other negative `rc`, append
and continue while the read filled the whole 1024-byte chunk.  `none`
means the oracle ran out of results before the loop exited (no real
execution corresponds to this). -/
def appendFromFdLoop : List ReadRes → iobuf → Nat → Option (Int × iobuf)
  | [], _, _ => none
  | ReadRes.err e :: _, buf, nread =>
      if e = EAGAIN then some (finalRet nread (-e) buf)
      else some (-e, buf)
  | ReadRes.ok d :: rest, buf, nread =>
      if d.length = 0 then some (finalRet nread 0 buf)
      else
        let buf2 := iobuf_append buf d
        let nread2 := nread + d.length
        if d.length = 1024 then appendFromFdLoop rest buf2 nread2
        else some (finalRet nread2 (d.length : Int) buf2)

/-- `iobuf_append_from_fd(buf, fd)` against the read oracle `reads`. -/
def iobuf_append_from_fd (reads : List ReadRes) (buf : iobuf) : Option (Int × iobuf) :=
  appendFromFdLoop reads buf 0

/-- All the chunks appended in order. -/
def appendChunks (buf : iobuf) : List (List Nat) → iobuf
  | [] => buf
  | c :: rest => appendChunks (iobuf_append buf c) rest

/-- Well-formed oracle: reads return at most the chunk size and errors
carry a positive errno. -/
def ReadsWF (reads : List ReadRes) : Prop :=
  ∀ r ∈ reads, match r with
    | ReadRes.ok d => d.length ≤ 1024
    | ReadRes.err e => 0 < e

lemma loop_err_eagain (buf : iobuf) (nread : Nat) (rest : List ReadRes) :
    appendFromFdLoop (ReadRes.err EAGAIN :: rest) buf nread
      = some (finalRet nread (-EAGAIN) buf) := by
  simp [appendFromFdLoop]

lemma loop_err_hard (e : Int) (hea : e ≠ EAGAIN) (buf : iobuf) (nread : Nat)
    (rest : List ReadRes) :
    appendFromFdLoop (ReadRes.err e :: rest) buf nread = some (-e, buf) := by
  simp [appendFromFdLoop, hea]

lemma loop_ok_eof (buf : iobuf) (nread : Nat) (rest : List ReadRes) :
    appendFromFdLoop (ReadRes.ok [] :: rest) buf nread
      = some (finalRet nread 0 buf) := by
  simp [appendFromFdLoop]

lemma loop_ok_short (d : List Nat) (h1 : d.length ≠ 0) (h2 : d.length ≠ 1024)
    (buf : iobuf) (nread : Nat) (rest : List ReadRes) :
    appendFromFdLoop (ReadRes.ok d :: rest) buf nread
      = some (finalRet (nread + d.length) (d.length : Int) (iobuf_append buf d)) := by
  simp [appendFromFdLoop, h1, h2]

lemma loop_ok_full (d : List Nat) (h1024 : d.length = 1024)
    (buf : iobuf) (nread : Nat) (rest : List ReadRes) :
    appendFromFdLoop (ReadRes.ok d :: rest) buf nread
      = appendFromFdLoop rest (iobuf_append buf d) (nread + 1024) := by
  simp [appendFromFdLoop, h1024]

lemma appendFromFdLoop_fulls (fulls : List (List Nat)) :
    ∀ (rest : List ReadRes) (buf : iobuf) (nread : Nat),
      (∀ l ∈ fulls, l.length = 1024) →
      appendFromFdLoop (fulls.map ReadRes.ok ++ rest) buf nread
        = appendFromFdLoop rest (appendChunks buf fulls) (nread + 1024 * fulls.length) := by
  induction fulls with
  | nil => intro rest buf nread _; simp [appendChunks]
  | cons c fulls' ih =>
    intro rest buf nread hF
    have hc : c.length = 1024 := hF c (by simp)
    rw [List.map_cons, List.cons_append, loop_ok_full c hc,
        ih rest (iobuf_append buf c) (nread + 1024) (fun l hl => hF l (by simp [hl]))]
    simp only [appendChunks, List.length_cons]
    congr 1
    ring

lemma appendFromFdLoop_ret_zero :
    ∀ (reads : List ReadRes) (buf : iobuf) (nread : Nat) (b : iobuf),
      ReadsWF reads → appendFromFdLoop reads buf nread = some (0, b) →
      nread = 0 ∧ reads.head? = some (ReadRes.ok []) := by
  intro reads
  induction reads with
  | nil => intro buf nread b _ h; simp [appendFromFdLoop] at h
  | cons res rest ih =>
    intro buf nread b hwf h
    cases res with
    | err e =>
      have he : 0 < e := hwf (ReadRes.err e) (by simp)
      by_cases hea : e = EAGAIN
      · subst hea
        rw [loop_err_eagain] at h
        unfold finalRet at h
        by_cases hn : nread = 0
        · rw [if_pos hn] at h
          have hx : (-EAGAIN : Int) = 0 := congrArg Prod.fst (Option.some.inj h)
          exact absurd hx (by decide)
        · rw [if_neg hn] at h
          have hx : ((nread : Nat) : Int) = 0 := congrArg Prod.fst (Option.some.inj h)
          exact absurd (by exact_mod_cast hx : nread = 0) hn
      · rw [loop_err_hard e hea] at h
        have hx : -e = 0 := congrArg Prod.fst (Option.some.inj h)
        omega
    | ok d =>
      by_cases hd : d.length = 0
      · rw [List.length_eq_zero] at hd
        subst hd
        rw [loop_ok_eof] at h
        unfold finalRet at h
        by_cases hn : nread = 0
        · exact ⟨hn, rfl⟩
        · rw [if_neg hn] at h
          have hx : ((nread : Nat) : Int) = 0 := congrArg Prod.fst (Option.some.inj h)
          exact absurd (by exact_mod_cast hx : nread = 0) hn
      · by_cases h1024 : d.length = 1024
        · rw [loop_ok_full d h1024] at h
          have := ih (iobuf_append buf d) (nread + 1024) b
            (fun x hx => hwf x (by simp [hx])) h
          omega
        · rw [loop_ok_short d hd h1024] at h
          unfold finalRet at h
          rw [if_neg (by omega)] at h
          have hx : ((nread + d.length : Nat) : Int) = 0 :=
            congrArg Prod.fst (Option.some.inj h)
          have : nread + d.length = 0 := by exact_mod_cast hx
          omega

/-- C5: the read loop of `iobuf_append_from_fd` continues exactly while
the previous read filled the whole 1024-byte transfer unit; it stops on
a short read, on would-block (`-EAGAIN`) and on end-of-stream, returning
the total number of bytes read in those cases; a hard read failure is
returned as its negative errno; the call returns 0 exactly when nothing
at all was read and the underlying read reported end-of-stream; and
when nothing was read and the read failed — would-block included — the
negative error code is propagated instead of a false zero. -/
theorem iobuf_append_from_fd_contract (buf : iobuf) (fulls : List (List Nat))
    (hF : ∀ l ∈ fulls, l.length = 1024) :
    (iobuf_append_from_fd (fulls.map ReadRes.ok ++ [ReadRes.ok []]) buf
        = some (if fulls.length = 0 then 0 else ((1024 * fulls.length : Nat) : Int),
                appendChunks buf fulls))
    ∧ (iobuf_append_from_fd (fulls.map ReadRes.ok ++ [ReadRes.err EAGAIN]) buf
        = some (if fulls.length = 0 then -EAGAIN else ((1024 * fulls.length : Nat) : Int),
                appendChunks buf fulls))
    ∧ (∀ e : Int, 0 < e → e ≠ EAGAIN →
        iobuf_append_from_fd (fulls.map ReadRes.ok ++ [ReadRes.err e]) buf
          = some (-e, appendChunks buf fulls))
    ∧ (∀ d : List Nat, 0 < d.length → d.length < 1024 →
        iobuf_append_from_fd (fulls.map ReadRes.ok ++ [ReadRes.ok d]) buf
          = some (((1024 * fulls.length + d.length : Nat) : Int),
                  iobuf_append (appendChunks buf fulls) d))
    ∧ (∀ (reads : List ReadRes) (r : Int) (b : iobuf),
        ReadsWF reads → iobuf_append_from_fd reads buf = some (r, b) →
        (r = 0 ↔ reads.head? = some (ReadRes.ok []))) := by
  refine ⟨?_, ?_, ?_, ?_, ?_⟩
  · unfold iobuf_append_from_fd
    rw [appendFromFdLoop_fulls fulls _ buf 0 hF, loop_ok_eof]
    unfold finalRet
    by_cases h : fulls.length = 0
    · simp [h]
    · rw [if_neg (by omega), if_neg h]
      norm_num
  · unfold iobuf_append_from_fd
    rw [appendFromFdLoop_fulls fulls _ buf 0 hF, loop_err_eagain]
    unfold finalRet
    by_cases h : fulls.length = 0
    · simp [h]
    · rw [if_neg (by omega), if_neg h]
      norm_num
  · intro e he hea
    unfold iobuf_append_from_fd
    rw [appendFromFdLoop_fulls fulls _ buf 0 hF, loop_err_hard e hea]
  · intro d hd1 hd2
    unfold iobuf_append_from_fd
    rw [appendFromFdLoop_fulls fulls _ buf 0 hF,
        loop_ok_short d (by omega) (by omega)]
    unfold finalRet
    rw [if_neg (by omega)]
    norm_num
  · intro reads r b hwf h
    constructor
    · intro hr
      subst hr
      exact (appendFromFdLoop_ret_zero reads buf 0 b hwf h).2
    · intro hh
      cases reads with
      | nil => simp at hh
      | cons res rest =>
        simp only [List.head?_cons, Option.some.injEq] at hh
        subst hh
        unfold iobuf_append_from_fd at h
        rw [loop_ok_eof] at h
        have hx : (0 : Int) = r := congrArg Prod.fst (Option.some.inj h)
        exact hx.symm

/-- C5 witness: a single short read of two bytes returns 2 and appends
the bytes; a first read reporting end-of-stream returns 0; a first read
reporting would-block returns `-EAGAIN`. -/
theorem iobuf_append_from_fd_contract_witness :
    iobuf_append_from_fd [ReadRes.ok [1, 2]] (iobuf_new 2)
        = some (2, iobuf_append (iobuf_new 2) [1, 2])
    ∧ iobuf_append_from_fd [ReadRes.ok []] (iobuf_new 2) = some (0, iobuf_new 2)
    ∧ iobuf_append_from_fd [ReadRes.err EAGAIN] (iobuf_new 2)
        = some (-EAGAIN, iobuf_new 2) := by
  have h := iobuf_append_from_fd_contract (iobuf_new 2) [] (by simp)
  refine ⟨?_, ?_, ?_⟩
  · have h4 := h.2.2.2.1 [1, 2] (by decide) (by decide)
    simpa [appendChunks] using h4
  · have h1 := h.1
    simpa [appendChunks] using h1
  · have h2 := h.2.1
    simpa [appendChunks] using h2

/-- C8 (amended): `iobuf_take_data` hands the current byte contents to
the caller and resets the buffer to an empty state whose capacity is
the buffer's current capacity at the time of the call (which equals the
original capacity only while the buffer has never grown); the
descriptor queue is unchanged. -/
theorem iobuf_take_data_resets_current_capacity (buf : iobuf) :
    (iobuf_take_data buf).1 = buf.data
    ∧ (iobuf_take_data buf).2.data = []
    ∧ iobuf_len (iobuf_take_data buf).2 = 0
    ∧ (iobuf_take_data buf).2.sz = buf.sz
    ∧ (iobuf_take_data buf).2.fds = buf.fds := by
  refine ⟨rfl, rfl, rfl, rfl, rfl⟩

/-! ## The intrusive doubly linked list (util-list.cpp)

Nodes live at addresses modelled as natural numbers; the world `LWorld`
maps every address to its `next`/`prev` pointers (`none` = NULL).  Each
C assertion is modelled by returning `none` (assertion abort); the
pointer writes of a splice are applied sequentially so aliasing behaves
exactly as in the source. -/

structure LNode where
  nxt : Option Nat
  prv : Option Nat
deriving DecidableEq

def LWorld : Type := Nat → LNode

/-- `list_init(list)`: `prev = next = list` (self loop). -/
def list_init (w : LWorld) (l : Nat) : LWorld :=
  Function.update w l { nxt := some l, prv := some l }

/-- `list_empty(list)`: asserts the node pointers are non-NULL, then
tests `list->next == list`. -/
def list_empty_chk (w : LWorld) (l : Nat) : Option Bool :=
  if (w l).nxt ≠ none ∧ (w l).prv ≠ none then some (decide ((w l).nxt = some l))
  else none

/-- The `elm` assertion of `list_insert`/`list_append`:
`(elm->next == NULL && elm->prev == NULL) || list_empty(elm)`.
Note the first disjunct: a node reset by `list_remove` passes. -/
def elm_ok (w : LWorld) (elm : Nat) : Option Bool :=
  if (w elm).nxt = none ∧ (w elm).prv = none then some true
  else list_empty_chk w elm

/-- `list_insert(list, elm)`: assert the head is initialized and `elm`
is fresh or empty, then splice `elm` right after `list`. -/
def list_insert (w : LWorld) (l elm : Nat) : Option LWorld :=
  if ¬ ((w l).nxt ≠ none ∧ (w l).prv ≠ none) then none
  else
    match elm_ok w elm with
    | none => none
    | some false => none
    | some true =>
      let w1 := Function.update w elm { w elm with prv := some l }
      let w2 := Function.update w1 elm { w1 elm with nxt := (w1 l).nxt }
      let w3 := Function.update w2 l { w2 l with nxt := some elm }
      match (w3 elm).nxt with
      | none => none
      | some p => some (Function.update w3 p { w3 p with prv := some elm })

/-- `list_append(list, elm)`: same assertions, splice `elm` right
before `list`. -/
def list_append (w : LWorld) (l elm : Nat) : Option LWorld :=
  if ¬ ((w l).nxt ≠ none ∧ (w l).prv ≠ none) then none
  else
    match elm_ok w elm with
    | none => none
    | some false => none
    | some true =>
      let w1 := Function.update w elm { w elm with nxt := some l }
      let w2 := Function.update w1 elm { w1 elm with prv := (w1 l).prv }
      let w3 := Function.update w2 l { w2 l with prv := some elm }
      match (w3 elm).prv with
      | none => none
      | some p => some (Function.update w3 p { w3 p with nxt := some elm })

/-- `list_remove(elm)`: assert the node pointers are non-NULL, splice
the node out, then reset `next = prev = NULL`. -/
def list_remove (w : LWorld) (elm : Nat) : Option LWorld :=
  if ¬ ((w elm).nxt ≠ none ∧ (w elm).prv ≠ none) then none
  else
    match (w elm).prv with
    | none => none
    | some p =>
      let w1 := Function.update w p { w p with nxt := (w elm).nxt }
      match (w1 elm).nxt with
      | none => none
      | some q =>
        let w2 := Function.update w1 q { w1 q with prv := (w1 elm).prv }
        let w3 := Function.update w2 elm { w2 elm with nxt := none }
        some (Function.update w3 elm { w3 elm with prv := none })

/-- A two-node world: head `0` and node `1` linked into its list. -/
def exListWorld : LWorld := fun k =>
  if k = 0 then { nxt := some 1, prv := some 1 }
  else if k = 1 then { nxt := some 0, prv := some 0 }
  else { nxt := none, prv := none }

/-- C7 counterexample: after `list_remove` splices node 1 out of the
list headed by 0, passing the removed node straight back to
`list_insert` — with no intervening `list_init` — succeeds: the `elm`
assertion explicitly accepts a NULL/NULL node, so such reuse is NOT
caught by an assertion failure as the claim states. -/
theorem list_reuse_counterexample :
    (Option.bind (list_remove exListWorld 1) (fun w => list_insert w 0 1)).isSome
      = true := by
  decide

/-- C7 (amended): `list_remove` resets the spliced-out node to the
NULL/NULL state; passing such a node again to `list_remove` (or to
`list_empty`) without `list_init` is caught by assertion failure, but
`list_insert` and `list_append` deliberately accept a NULL-reset node
(first disjunct of their assertion) and splice it like a fresh one;
what the insertion assertion does catch is a node currently linked into
a list (non-NULL pointers, not a self loop). -/
theorem list_remove_reset_and_asserts (w : LWorld) (l elm : Nat) :
    (∀ w2 : LWorld, list_remove w elm = some w2 →
        (w2 elm).nxt = none ∧ (w2 elm).prv = none)
    ∧ ((w elm).nxt = none → list_remove w elm = none ∧ list_empty_chk w elm = none)
    ∧ ((w elm).nxt = none → (w elm).prv = none →
        (w l).nxt ≠ none → (w l).prv ≠ none → l ≠ elm →
        (list_insert w l elm).isSome = true ∧ (list_append w l elm).isSome = true)
    ∧ ((w elm).nxt ≠ none → (w elm).prv ≠ none → (w elm).nxt ≠ some elm →
        list_insert w l elm = none ∧ list_append w l elm = none) := by
  refine ⟨?_, ?_, ?_, ?_⟩
  · intro w2 h
    unfold list_remove at h
    split at h
    · simp at h
    · split at h
      · simp at h
      · dsimp only at h
        split at h
        · simp at h
        · have h2 := Option.some.inj h
          rw [← h2]
          simp [Function.update_same]
  · intro hn
    constructor
    · unfold list_remove
      rw [if_pos (by simp [hn])]
    · unfold list_empty_chk
      rw [if_neg (by simp [hn])]
  · intro hn hp hln hlp hne
    have hok : elm_ok w elm = some true := by
      unfold elm_ok
      rw [if_pos ⟨hn, hp⟩]
    constructor
    · cases hlx : (w l).nxt with
      | none => exact absurd hlx hln
      | some x =>
        unfold list_insert
        rw [if_neg (not_not.mpr ⟨hln, hlp⟩), hok]
        simp [Function.update_apply, hne, Ne.symm hne, hlx]
    · cases hlx : (w l).prv with
      | none => exact absurd hlx hlp
      | some x =>
        unfold list_append
        rw [if_neg (not_not.mpr ⟨hln, hlp⟩), hok]
        simp [Function.update_apply, hne, Ne.symm hne, hlx]
  · intro hn hp hs
    have hok : elm_ok w elm = some false := by
      unfold elm_ok list_empty_chk
      rw [if_neg (fun hc => hn hc.1), if_pos ⟨hn, hp⟩]
      simp [hs]
    constructor
    · unfold list_insert
      rw [hok]
      by_cases hl : (w l).nxt ≠ none ∧ (w l).prv ≠ none
      · rw [if_neg (not_not.mpr hl)]
      · rw [if_pos hl]
    · unfold list_append
      rw [hok]
      by_cases hl : (w l).nxt ≠ none ∧ (w l).prv ≠ none
      · rw [if_neg (not_not.mpr hl)]
      · rw [if_pos hl]

/-- C7 witness: in the two-node example, removing node 1 resets it to
NULL/NULL; a second `list_remove` of node 1 then hits the assertion,
while re-inserting the removed node succeeds; and inserting the
still-linked node 1 of the original world hits the assertion. -/
theorem list_remove_reset_and_asserts_witness :
    ((exListWorld 1).nxt ≠ none ∧ (exListWorld 1).prv ≠ none ∧
      (exListWorld 1).nxt ≠ some 1)
    ∧ list_insert exListWorld 0 1 = none := by
  refine ⟨by decide, ?_⟩
  exact (list_remove_reset_and_asserts exListWorld 0 1).2.2.2
    (by decide) (by decide) (by decide) |>.1

/-! ## The source/sink reactor (util-sources.cpp)

Sources are identified by `Fin n`; the reactor state holds, per source,
its reference count (`object.refcount`), activity flag, file
descriptor, close policy, whether the epoll registration is in place,
whether `src->sink` points at the sink, and whether its storage has
been freed (`object_destroy` ran).  The sink's two intrusive lists
(`sources` and `sources_removed`) are lists of identifiers.  The epoll
facility itself is external: registration results and readiness events
come in as oracle inputs. -/

inductive CloseBehavior where
  | onRemove
  | onDestroy
  | never
deriving DecidableEq

structure SourceSt where
  refcount : Nat
  is_active : Bool
  fd : Int
  close_behavior : CloseBehavior
  registered : Bool
  hasSink : Bool
  freed : Bool
deriving DecidableEq

structure RState (n : Nat) where
  srcs : Fin n → SourceSt
  sources : List (Fin n)
  sources_removed : List (Fin n)

/-- `source_unref` on the source record: decrement the count; at zero,
`source_destroy` runs (it closes the fd under the on-destroy policy)
and the storage is freed. -/
def unrefSrcRec (s : SourceSt) : SourceSt :=
  if s.refcount - 1 = 0 then
    { s with refcount := 0, freed := true,
             fd := if s.close_behavior = CloseBehavior.onDestroy then -1 else s.fd }
  else { s with refcount := s.refcount - 1 }

/-- `source_unref(src)` inside the reactor state. -/
def source_unref_st (st : RState n) (id : Fin n) : RState n :=
  { st with srcs := Function.update st.srcs id (unrefSrcRec (st.srcs id)) }

/-- `source_ref(src)` inside the reactor state. -/
def source_ref_st (st : RState n) (id : Fin n) : RState n :=
  { st with srcs := (Function.update st.srcs id
      { st.srcs id with refcount := (st.srcs id).refcount + 1 }) }

/-- `source_remove(src)`: no-op unless active; otherwise deregister
from epoll, close the fd now under the on-remove policy, clear the
active flag, release the sink's registration reference, move the link
from the sink's `sources` list to its `sources_removed` list (a node
sits in exactly one list, so the erase hits the list that holds it),
and clear `src->sink`. -/
def source_remove_st (st : RState n) (id : Fin n) : RState n :=
  if (st.srcs id).is_active = false then st
  else
    let s := st.srcs id
    let s1 := { s with registered := false,
                       fd := if s.close_behavior = CloseBehavior.onRemove then -1 else s.fd,
                       is_active := false }
    let st1 := { st with srcs := Function.update st.srcs id s1 }
    let st2 := source_unref_st st1 id
    let st3 := { st2 with sources := st2.sources.erase id,
                          sources_removed := st2.sources_removed.erase id ++ [id] }
    { st3 with srcs := Function.update st3.srcs id { st3.srcs id with hasSink := false } }

/-- `sink_add_source(sink, src)`: take a reference for the epoll data
pointer; if the `EPOLL_CTL_ADD` call (result supplied by the oracle
`epoll_rc`) fails, release that reference and propagate the error;
otherwise mark active, set the back-reference, take the list
reference and append to the sink's source list. -/
def sink_add_source_st (st : RState n) (id : Fin n) (epoll_rc : Int) : Int × RState n :=
  let st1 := source_ref_st st id
  if epoll_rc < 0 then (epoll_rc, source_unref_st st1 id)
  else
    let s := st1.srcs id
    let st2 := { st1 with srcs := (Function.update st1.srcs id
        { s with is_active := true, hasSink := true, registered := true,
                 refcount := s.refcount + 1 }) }
    (0, { st2 with sources := st2.sources ++ [id] })

/-- A dispatch callback is an arbitrary sequence of reactor calls; we
model the two calls relevant to lifetime: removing a source and
dropping an external reference. -/
inductive CbAct (n : Nat) where
  | removeSrc (id : Fin n)
  | unrefSrc (id : Fin n)

/-- References the sink itself holds on a source: two while it is on
the active list (epoll data pointer + list membership), one while it is
on the pending-removal list. -/
def sinkHeld (st : RState n) (id : Fin n) : Nat :=
  (if id ∈ st.sources then 2 else 0) + (if id ∈ st.sources_removed then 1 else 0)

/-- Execute one callback action.  An `unrefSrc` only fires when the
callback actually holds an external reference to drop (refcount above
what the sink itself holds) — a well-behaved caller never unrefs a
reference it does not own. -/
def runAct (st : RState n) : CbAct n → RState n
  | CbAct.removeSrc id => source_remove_st st id
  | CbAct.unrefSrc id =>
      if sinkHeld st id < (st.srcs id).refcount then source_unref_st st id else st

def runActs (st : RState n) : List (CbAct n) → RState n
  | [] => st
  | a :: rest => runActs (runAct st a) rest

/-- One iteration of the ready-event loop of `sink_dispatch`: skip the
event if the source's fd is already the `-1` sentinel, otherwise invoke
its dispatch callback. -/
def dispatchOne (st : RState n) (ev : Fin n × List (CbAct n)) : RState n :=
  if (st.srcs ev.1).fd = -1 then st else runActs st ev.2

/-- The ready-event loop of `sink_dispatch` over the events returned by
`epoll_wait`. -/
def dispatchPhase (st : RState n) : List (Fin n × List (CbAct n)) → RState n
  | [] => st
  | ev :: rest => dispatchPhase (dispatchOne st ev) rest

/-- The identifiers whose dispatch callback actually runs during the
ready-event loop (fd not `-1` at their turn). -/
def dispatchTrace (st : RState n) : List (Fin n × List (CbAct n)) → List (Fin n)
  | [] => []
  | ev :: rest =>
    if (st.srcs ev.1).fd = -1 then dispatchTrace st rest
    else ev.1 :: dispatchTrace (runActs st ev.2) rest

/-- The reap loop at the end of `sink_dispatch`: for each source on the
pending-removal list, unlink it and release the pending-list
reference. -/
def reapLoop : List (Fin n) → RState n → RState n
  | [], st => st
  | id :: rest, st =>
    reapLoop rest
      (source_unref_st { st with sources_removed := st.sources_removed.erase id } id)

def reapPhase (st : RState n) : RState n := reapLoop st.sources_removed st

/-- `epoll_wait(epollfd, ep, maxevents, 0)` returns at most `maxevents`
events (modelled from the OS contract: the ready queue is truncated to
the caller's array capacity). -/
def epollWait (pending : List α) (maxevents : Nat) : List α := pending.take maxevents

/-- `sink_dispatch(sink)`: one `epoll_wait` with a 32-entry event
array, the ready-event loop, then the reap loop. -/
def sink_dispatch_st (st : RState n) (pending : List (Fin n × List (CbAct n))) : RState n :=
  reapPhase (dispatchPhase st (epollWait pending 32))

/-- A source the sink knows about: on the active list or pending
removal. -/
def listed (st : RState n) (id : Fin n) : Prop :=
  id ∈ st.sources ∨ id ∈ st.sources_removed

instance (st : RState n) (id : Fin n) : Decidable (listed st id) := by
  unfold listed
  infer_instance

/-- The sink invariant: the two lists have no duplicates and do not
overlap; active-list members are live, active and carry at least the
sink's two references; pending members are live, inactive and carry at
least the pending-list reference; every active source is on the active
list. -/
def WFsink (st : RState n) : Prop :=
  st.sources.Nodup ∧ st.sources_removed.Nodup ∧
  (∀ id ∈ st.sources,
      (st.srcs id).freed = false ∧ (st.srcs id).is_active = true ∧
      2 ≤ (st.srcs id).refcount ∧ id ∉ st.sources_removed) ∧
  (∀ id ∈ st.sources_removed,
      (st.srcs id).freed = false ∧ (st.srcs id).is_active = false ∧
      1 ≤ (st.srcs id).refcount) ∧
  (∀ id : Fin n, (st.srcs id).is_active = true → id ∈ st.sources)

instance (st : RState n) : Decidable (WFsink st) := by
  unfold WFsink
  infer_instance

lemma source_remove_inactive (st : RState n) (id : Fin n)
    (h : (st.srcs id).is_active = false) : source_remove_st st id = st := by
  unfold source_remove_st
  rw [if_pos h]

lemma source_remove_active (st : RState n) (id : Fin n)
    (h : (st.srcs id).is_active = true) (hrc : 2 ≤ (st.srcs id).refcount) :
    source_remove_st st id =
      { srcs := (Function.update st.srcs id
          { st.srcs id with registered := false, is_active := false, hasSink := false,
                            refcount := (st.srcs id).refcount - 1,
                            fd := if (st.srcs id).close_behavior = CloseBehavior.onRemove then (-1 : Int) else (st.srcs id).fd }),
        sources := st.sources.erase id,
        sources_removed := st.sources_removed.erase id ++ [id] } := by
  unfold source_remove_st source_unref_st unrefSrcRec
  rw [if_neg (by simp [h])]
  have hne : ¬((st.srcs id).refcount - 1 = 0) := by omega
  simp only [Function.update_same, Function.update_idem, hne, if_false]

lemma source_remove_result_inactive (st : RState n) (id : Fin n) :
    ((source_remove_st st id).srcs id).is_active = false := by
  unfold source_remove_st
  by_cases h : (st.srcs id).is_active = false
  · rw [if_pos h]
    exact h
  · rw [if_neg h]
    dsimp only
    unfold source_unref_st unrefSrcRec
    simp only [Function.update_same, Function.update_idem]
    split <;> simp

/-- C6: `source_remove` is idempotent — on an inactive or
already-removed source it is a no-op changing nothing, so a second call
equals a single call — and on an active source (which carries the
sink's two references) it deregisters the descriptor, applies the
close policy (close-on-remove sets the fd to the closed sentinel now),
marks the source inactive, releases the sink's registration reference,
moves the source from the active list to the pending-removal list, and
clears the back-reference to the sink. -/
theorem source_remove_idempotent_effects (st : RState n) (id : Fin n) :
    source_remove_st (source_remove_st st id) id = source_remove_st st id
    ∧ ((st.srcs id).is_active = false → source_remove_st st id = st)
    ∧ ((st.srcs id).is_active = true → 2 ≤ (st.srcs id).refcount →
        source_remove_st st id =
          { srcs := (Function.update st.srcs id
              { st.srcs id with registered := false, is_active := false,
                                hasSink := false,
                                refcount := (st.srcs id).refcount - 1,
                                fd := if (st.srcs id).close_behavior = CloseBehavior.onRemove then (-1 : Int) else (st.srcs id).fd }),
            sources := st.sources.erase id,
            sources_removed := st.sources_removed.erase id ++ [id] }) := by
  refine ⟨source_remove_inactive _ id (source_remove_result_inactive st id),
          fun h => source_remove_inactive st id h,
          fun h hrc => source_remove_active st id h hrc⟩

/-- An example state with one active source carrying exactly the
sink's two references. -/
def stC6 : RState 1 :=
  { srcs := fun _ => { refcount := 2, is_active := true, fd := 5,
                       close_behavior := CloseBehavior.onRemove, registered := true,
                       hasSink := true, freed := false },
    sources := [0], sources_removed := [] }

/-- C6 witness: removing the active source of `stC6` has exactly the
described effect, and removing twice equals removing once. -/
theorem source_remove_idempotent_effects_witness :
    source_remove_st (source_remove_st stC6 0) 0 = source_remove_st stC6 0
    ∧ source_remove_st stC6 0 =
        { srcs := (Function.update stC6.srcs 0
            { stC6.srcs 0 with registered := false, is_active := false,
                               hasSink := false,
                               refcount := (stC6.srcs 0).refcount - 1,
                               fd := if (stC6.srcs 0).close_behavior = CloseBehavior.onRemove then (-1 : Int) else (stC6.srcs 0).fd }),
          sources := stC6.sources.erase 0,
          sources_removed := stC6.sources_removed.erase 0 ++ [0] } := by
  refine ⟨(source_remove_idempotent_effects stC6 0).1,
          (source_remove_idempotent_effects stC6 0).2.2 (by decide) (by decide)⟩

lemma unref_ref_cancel (st : RState n) (id : Fin n)
    (hfr : (st.srcs id).freed = false) (hrc : 1 ≤ (st.srcs id).refcount) :
    source_unref_st (source_ref_st st id) id = st := by
  unfold source_unref_st source_ref_st unrefSrcRec
  simp only [Function.update_same, Function.update_idem]
  rw [if_neg (by simp; omega)]
  have hrec : ({ st.srcs id with refcount := (st.srcs id).refcount + 1 - 1 } : SourceSt)
      = st.srcs id := by
    have h2 : (st.srcs id).refcount + 1 - 1 = (st.srcs id).refcount := by omega
    rw [h2]
  rw [hrec, Function.update_eq_self]

/-- C9: when the epoll registration fails, `sink_add_source` returns
the negative error code and the whole reactor state is exactly as
before the call — the reference taken for the registration has been
given back (no leak), the source stays inactive, is not appended to the
sink's list and gains no back-reference.  On success it returns 0, the
source is active, registered, back-references the sink, carries two
more references (epoll data pointer and list membership), and sits at
the end of the sink's source list. -/
theorem sink_add_source_error_atomic (st : RState n) (id : Fin n) (epoll_rc : Int)
    (hfr : (st.srcs id).freed = false) (hrc : 1 ≤ (st.srcs id).refcount) :
    (epoll_rc < 0 → sink_add_source_st st id epoll_rc = (epoll_rc, st))
    ∧ (0 ≤ epoll_rc →
        (sink_add_source_st st id epoll_rc).1 = 0
        ∧ ((sink_add_source_st st id epoll_rc).2.srcs id).is_active = true
        ∧ ((sink_add_source_st st id epoll_rc).2.srcs id).hasSink = true
        ∧ ((sink_add_source_st st id epoll_rc).2.srcs id).registered = true
        ∧ ((sink_add_source_st st id epoll_rc).2.srcs id).refcount
            = (st.srcs id).refcount + 2
        ∧ (sink_add_source_st st id epoll_rc).2.sources = st.sources ++ [id]
        ∧ (sink_add_source_st st id epoll_rc).2.sources_removed
            = st.sources_removed) := by
  constructor
  · intro hlt
    unfold sink_add_source_st
    rw [if_pos hlt, unref_ref_cancel st id hfr hrc]
  · intro hge
    unfold sink_add_source_st source_ref_st
    rw [if_neg (by omega)]
    dsimp only
    refine ⟨rfl, ?_, ?_, ?_, ?_, rfl, rfl⟩ <;>
      simp only [Function.update_same, Function.update_idem]

/-- An example state with one inactive, freshly created source (one
caller reference). -/
def stC9 : RState 1 :=
  { srcs := fun _ => { refcount := 1, is_active := false, fd := 5,
                       close_behavior := CloseBehavior.onRemove, registered := false,
                       hasSink := false, freed := false },
    sources := [], sources_removed := [] }

/-- C9 witness: a failed registration (`-EPERM`, i.e. `-1`) leaves
`stC9` exactly unchanged and propagates the code; a successful one
activates the source. -/
theorem sink_add_source_error_atomic_witness :
    sink_add_source_st stC9 0 (-1) = (-1, stC9)
    ∧ (sink_add_source_st stC9 0 0).1 = 0
    ∧ ((sink_add_source_st stC9 0 0).2.srcs 0).is_active = true := by
  refine ⟨(sink_add_source_error_atomic stC9 0 (-1) (by decide) (by decide)).1 (by decide),
          ((sink_add_source_error_atomic stC9 0 0 (by decide) (by decide)).2 (by decide)).1,
          ((sink_add_source_error_atomic stC9 0 0 (by decide) (by decide)).2 (by decide)).2.1⟩

lemma source_remove_srcs_other (st : RState n) (id j : Fin n) (hne : j ≠ id) :
    (source_remove_st st id).srcs j = st.srcs j := by
  unfold source_remove_st source_unref_st
  by_cases h2 : (st.srcs id).is_active = false
  · rw [if_pos h2]
  · rw [if_neg h2]
    dsimp only
    rw [Function.update_noteq hne, Function.update_noteq hne, Function.update_noteq hne]

lemma source_remove_lists (st : RState n) (id : Fin n)
    (ha : (st.srcs id).is_active = true) :
    (source_remove_st st id).sources = st.sources.erase id
    ∧ (source_remove_st st id).sources_removed = st.sources_removed.erase id ++ [id] := by
  unfold source_remove_st source_unref_st
  rw [if_neg (by simp [ha])]
  exact ⟨rfl, rfl⟩

lemma source_remove_srcs_self (st : RState n) (id : Fin n)
    (ha : (st.srcs id).is_active = true) (hrc : 2 ≤ (st.srcs id).refcount) :
    (source_remove_st st id).srcs id =
      { st.srcs id with registered := false, is_active := false, hasSink := false,
                        refcount := (st.srcs id).refcount - 1,
                        fd := if (st.srcs id).close_behavior = CloseBehavior.onRemove then (-1 : Int) else (st.srcs id).fd } := by
  rw [source_remove_active st id ha hrc]
  exact Function.update_same _ _ _

lemma WF_source_remove (st : RState n) (id : Fin n) (h : WFsink st) :
    WFsink (source_remove_st st id)
    ∧ ∀ j, listed st j → listed (source_remove_st st id) j := by
  by_cases ha : (st.srcs id).is_active = true
  case neg =>
    have ha2 : (st.srcs id).is_active = false := by
      cases hb : (st.srcs id).is_active
      · rfl
      · exact absurd hb ha
    rw [source_remove_inactive st id ha2]
    exact ⟨h, fun j hj => hj⟩
  case pos =>
    unfold WFsink at h
    obtain ⟨hnd1, hnd2, hact, hrem, hatl⟩ := h
    have hmem : id ∈ st.sources := hatl id ha
    obtain ⟨hfr, _hia, hrc, hnin⟩ := hact id hmem
    have hl := source_remove_lists st id ha
    have herase : st.sources_removed.erase id = st.sources_removed :=
      List.erase_of_not_mem hnin
    have hl2 : (source_remove_st st id).sources_removed = st.sources_removed ++ [id] := by
      rw [hl.2, herase]
    have hself := source_remove_srcs_self st id ha hrc
    have hsfr : ((source_remove_st st id).srcs id).freed = (st.srcs id).freed := by
      rw [hself]
    have hsia : ((source_remove_st st id).srcs id).is_active = false :=
      source_remove_result_inactive st id
    have hsrc : ((source_remove_st st id).srcs id).refcount
        = (st.srcs id).refcount - 1 := by
      rw [hself]
    constructor
    · unfold WFsink
      refine ⟨?_, ?_, ?_, ?_, ?_⟩
      · rw [hl.1]
        exact hnd1.erase id
      · rw [hl2, List.nodup_append]
        refine ⟨hnd2, List.nodup_singleton id, ?_⟩
        intro a haa hab
        have : a = id := by simpa using hab
        exact hnin (this ▸ haa)
      · intro j hj
        rw [hl.1] at hj
        have hj2 := (List.Nodup.mem_erase_iff hnd1).mp hj
        have hsame := source_remove_srcs_other st id j hj2.1
        obtain ⟨h1, h2, h3, h4⟩ := hact j hj2.2
        refine ⟨by rw [hsame]; exact h1, by rw [hsame]; exact h2,
                by rw [hsame]; exact h3, ?_⟩
        rw [hl2]
        simp [h4, hj2.1]
      · intro j hj
        rw [hl2] at hj
        rcases List.mem_append.mp hj with hjr | hjid
        · have hne : j ≠ id := fun he => hnin (he ▸ hjr)
          have hsame := source_remove_srcs_other st id j hne
          obtain ⟨h1, h2, h3⟩ := hrem j hjr
          exact ⟨by rw [hsame]; exact h1, by rw [hsame]; exact h2,
                 by rw [hsame]; exact h3⟩
        · have hje : j = id := by simpa using hjid
          subst hje
          refine ⟨by rw [hsfr]; exact hfr, hsia, ?_⟩
          rw [hsrc]
          omega
      · intro j hj
        by_cases hje : j = id
        · subst hje
          rw [hsia] at hj
          exact Bool.noConfusion hj
        · rw [source_remove_srcs_other st id j hje] at hj
          rw [hl.1]
          exact (List.Nodup.mem_erase_iff hnd1).mpr ⟨hje, hatl j hj⟩
    · intro j hj
      unfold listed at hj ⊢
      by_cases hje : j = id
      · subst hje
        right
        rw [hl2]
        simp
      · rcases hj with hjs | hjr
        · left
          rw [hl.1]
          exact (List.Nodup.mem_erase_iff hnd1).mpr ⟨hje, hjs⟩
        · right
          rw [hl2]
          exact List.mem_append_left _ hjr

lemma unrefSrcRec_is_active (s : SourceSt) :
    (unrefSrcRec s).is_active = s.is_active := by
  unfold unrefSrcRec
  split <;> rfl

lemma unrefSrcRec_live (s : SourceSt) (h : 2 ≤ s.refcount) :
    unrefSrcRec s = { s with refcount := s.refcount - 1 } := by
  unfold unrefSrcRec
  rw [if_neg (by omega)]

lemma WF_runAct_unref (st : RState n) (id : Fin n) (h : WFsink st) :
    WFsink (runAct st (CbAct.unrefSrc id))
    ∧ (runAct st (CbAct.unrefSrc id)).sources = st.sources
    ∧ (runAct st (CbAct.unrefSrc id)).sources_removed = st.sources_removed := by
  have hrw : runAct st (CbAct.unrefSrc id)
      = if sinkHeld st id < (st.srcs id).refcount then source_unref_st st id
        else st := rfl
  rw [hrw]
  by_cases hg : sinkHeld st id < (st.srcs id).refcount
  case neg =>
    rw [if_neg hg]
    exact ⟨h, rfl, rfl⟩
  case pos =>
    rw [if_pos hg]
    refine ⟨?_, rfl, rfl⟩
    unfold WFsink at h
    obtain ⟨hnd1, hnd2, hact, hrem, hatl⟩ := h
    have hother : ∀ j : Fin n, j ≠ id → (source_unref_st st id).srcs j = st.srcs j :=
      fun j hne => Function.update_noteq hne _ _
    have hselfu : (source_unref_st st id).srcs id = unrefSrcRec (st.srcs id) :=
      Function.update_same _ _ _
    unfold WFsink
    refine ⟨hnd1, hnd2, ?_, ?_, ?_⟩
    · intro j hj
      by_cases hje : j = id
      · obtain ⟨h1, h2, h3, h4⟩ := hact j hj
        subst hje
        have hj2 : j ∈ st.sources := hj
        have hsh : sinkHeld st j = 2 := by
          unfold sinkHeld
          rw [if_pos hj2, if_neg h4]
        have heq : (source_unref_st st j).srcs j
            = { st.srcs j with refcount := (st.srcs j).refcount - 1 } := by
          rw [hselfu, unrefSrcRec_live _ (by omega)]
        refine ⟨by rw [heq]; exact h1, by rw [heq]; exact h2, ?_, h4⟩
        rw [heq]
        show 2 ≤ (st.srcs j).refcount - 1
        omega
      · obtain ⟨h1, h2, h3, h4⟩ := hact j hj
        exact ⟨by rw [hother j hje]; exact h1, by rw [hother j hje]; exact h2,
               by rw [hother j hje]; exact h3, h4⟩
    · intro j hj
      by_cases hje : j = id
      · obtain ⟨h1, h2, h3⟩ := hrem j hj
        have hjs : j ∉ st.sources := fun hjs => (hact j hjs).2.2.2 hj
        subst hje
        have hj2 : j ∈ st.sources_removed := hj
        have hsh : sinkHeld st j = 1 := by
          unfold sinkHeld
          rw [if_neg hjs, if_pos hj2]
        have heq : (source_unref_st st j).srcs j
            = { st.srcs j with refcount := (st.srcs j).refcount - 1 } := by
          rw [hselfu, unrefSrcRec_live _ (by omega)]
        refine ⟨by rw [heq]; exact h1, by rw [heq]; exact h2, ?_⟩
        rw [heq]
        show 1 ≤ (st.srcs j).refcount - 1
        omega
      · obtain ⟨h1, h2, h3⟩ := hrem j hj
        exact ⟨by rw [hother j hje]; exact h1, by rw [hother j hje]; exact h2,
               by rw [hother j hje]; exact h3⟩
    · intro j hj
      by_cases hje : j = id
      · subst hje
        rw [hselfu, unrefSrcRec_is_active] at hj
        exact hatl j hj
      · rw [hother j hje] at hj
        exact hatl j hj

lemma WF_runAct (st : RState n) (a : CbAct n) (h : WFsink st) :
    WFsink (runAct st a) ∧ ∀ j, listed st j → listed (runAct st a) j := by
  cases a with
  | removeSrc id => exact WF_source_remove st id h
  | unrefSrc id =>
    have hu := WF_runAct_unref st id h
    refine ⟨hu.1, ?_⟩
    intro j hj
    unfold listed at hj ⊢
    rw [hu.2.1, hu.2.2]
    exact hj

lemma WF_runActs (acts : List (CbAct n)) :
    ∀ st : RState n, WFsink st →
      WFsink (runActs st acts) ∧ ∀ j, listed st j → listed (runActs st acts) j := by
  induction acts with
  | nil => intro st h; exact ⟨h, fun j hj => hj⟩
  | cons a rest ih =>
    intro st h
    have h1 := WF_runAct st a h
    have h2 := ih (runAct st a) h1.1
    exact ⟨h2.1, fun j hj => h2.2 j (h1.2 j hj)⟩

lemma WF_dispatchOne (st : RState n) (ev : Fin n × List (CbAct n)) (h : WFsink st) :
    WFsink (dispatchOne st ev) ∧ ∀ j, listed st j → listed (dispatchOne st ev) j := by
  unfold dispatchOne
  by_cases hf : (st.srcs ev.1).fd = -1
  · rw [if_pos hf]
    exact ⟨h, fun j hj => hj⟩
  · rw [if_neg hf]
    exact WF_runActs ev.2 st h

lemma WF_dispatchPhase (ready : List (Fin n × List (CbAct n))) :
    ∀ st : RState n, WFsink st →
      WFsink (dispatchPhase st ready)
      ∧ ∀ j, listed st j → listed (dispatchPhase st ready) j := by
  induction ready with
  | nil => intro st h; exact ⟨h, fun j hj => hj⟩
  | cons ev rest ih =>
    intro st h
    have h1 := WF_dispatchOne st ev h
    have h2 := ih (dispatchOne st ev) h1.1
    exact ⟨h2.1, fun j hj => h2.2 j (h1.2 j hj)⟩

lemma reapLoop_removed_empty :
    ∀ (l : List (Fin n)) (st : RState n), st.sources_removed = l → l.Nodup →
      (reapLoop l st).sources_removed = [] := by
  intro l
  induction l with
  | nil =>
    intro st h _
    simpa [reapLoop] using h
  | cons idd rest ih =>
    intro st h hnd
    unfold reapLoop
    apply ih
    · show st.sources_removed.erase idd = rest
      rw [h, List.erase_cons_head]
    · exact (List.nodup_cons.mp hnd).2

lemma reapLoop_srcs_not_mem :
    ∀ (l : List (Fin n)) (st : RState n) (id : Fin n), id ∉ l →
      (reapLoop l st).srcs id = st.srcs id := by
  intro l
  induction l with
  | nil => intro st id _; rfl
  | cons idd rest ih =>
    intro st id hid
    unfold reapLoop
    rw [ih _ id (fun hm => hid (List.mem_cons_of_mem idd hm))]
    exact Function.update_noteq
      (fun he => hid (by rw [he]; exact List.mem_cons_self idd rest)) _ _

lemma reapLoop_srcs_mem :
    ∀ (l : List (Fin n)) (st : RState n) (id : Fin n), l.Nodup → id ∈ l →
      (reapLoop l st).srcs id = unrefSrcRec (st.srcs id) := by
  intro l
  induction l with
  | nil => intro st id _ h; simp at h
  | cons idd rest ih =>
    intro st id hnd hid
    unfold reapLoop
    by_cases hje : id = idd
    · subst hje
      have hnr : id ∉ rest := (List.nodup_cons.mp hnd).1
      rw [reapLoop_srcs_not_mem rest _ id hnr]
      exact Function.update_same _ _ _
    · have hmem : id ∈ rest := by
        rcases List.mem_cons.mp hid with he | hm
        · exact absurd he hje
        · exact hm
      rw [ih _ id (List.nodup_cons.mp hnd).2 hmem]
      congr 1
      exact Function.update_noteq hje _ _

/-- C1: during a `sink_dispatch` pass, no source the sink knows about —
active or pending removal — is freed while the ready-event callbacks
run, whatever combination of `source_remove` calls (on the dispatching
source or any other) and legitimate reference drops the callbacks
perform: removal only deregisters and moves the source to the
pending-removal list.  The pending sources are released only by the
reap loop after all ready sources have been processed: it empties the
pending list, and a pending source whose only remaining reference was
the pending-list reference is freed there, at the end of the pass. -/
theorem sink_dispatch_defers_release (st : RState n)
    (pending : List (Fin n × List (CbAct n))) (hwf : WFsink st) :
    (∀ id, listed st id →
        ((dispatchPhase st (epollWait pending 32)).srcs id).freed = false)
    ∧ (sink_dispatch_st st pending).sources_removed = []
    ∧ (∀ id, id ∈ (dispatchPhase st (epollWait pending 32)).sources_removed →
        ((dispatchPhase st (epollWait pending 32)).srcs id).refcount = 1 →
        ((sink_dispatch_st st pending).srcs id).freed = true) := by
  have hD := WF_dispatchPhase (epollWait pending 32) st hwf
  have hwfD := hD.1
  unfold WFsink at hwfD
  obtain ⟨hnd1, hnd2, hact, hrem, hatl⟩ := hwfD
  refine ⟨?_, ?_, ?_⟩
  · intro id hl
    have hld := hD.2 id hl
    unfold listed at hld
    rcases hld with hs | hr
    · exact (hact id hs).1
    · exact (hrem id hr).1
  · unfold sink_dispatch_st reapPhase
    exact reapLoop_removed_empty _ _ rfl hnd2
  · intro id hmem hrc
    unfold sink_dispatch_st reapPhase
    rw [reapLoop_srcs_mem _ _ id hnd2 hmem]
    unfold unrefSrcRec
    rw [hrc]
    rfl

/-- An example sink with two active sources, each carrying exactly the
sink's two references. -/
def stC1 : RState 2 :=
  { srcs := fun _ => { refcount := 2, is_active := true, fd := 7,
                       close_behavior := CloseBehavior.onRemove, registered := true,
                       hasSink := true, freed := false },
    sources := [0, 1], sources_removed := [] }

/-- A readiness report in which source 0 removes itself from inside its
own dispatch callback. -/
def pendC1 : List (Fin 2 × List (CbAct 2)) :=
  [(0, [CbAct.removeSrc 0]), (1, [])]

/-- C1 witness: with source 0 removing itself during its callback, its
storage is still live at the end of the callback phase, and the full
dispatch pass ends with an empty pending-removal list. -/
theorem sink_dispatch_defers_release_witness :
    ((dispatchPhase stC1 (epollWait pendC1 32)).srcs 0).freed = false
    ∧ (sink_dispatch_st stC1 pendC1).sources_removed = [] := by
  refine ⟨(sink_dispatch_defers_release stC1 pendC1 (by decide)).1 0 (by decide),
          (sink_dispatch_defers_release stC1 pendC1 (by decide)).2.1⟩

lemma dispatchTrace_length (l : List (Fin n × List (CbAct n))) :
    ∀ st : RState n, (dispatchTrace st l).length ≤ l.length := by
  induction l with
  | nil => intro st; simp [dispatchTrace]
  | cons ev rest ih =>
    intro st
    unfold dispatchTrace
    by_cases hf : (st.srcs ev.1).fd = -1
    · rw [if_pos hf]
      calc (dispatchTrace st rest).length ≤ rest.length := ih st
        _ ≤ (ev :: rest).length := by simp
    · rw [if_neg hf]
      simp only [List.length_cons]
      exact Nat.succ_le_succ (ih (runActs st ev.2))

lemma dispatchTrace_mem (l : List (Fin n × List (CbAct n))) :
    ∀ (st : RState n) (id : Fin n),
      id ∈ dispatchTrace st l → id ∈ l.map Prod.fst := by
  induction l with
  | nil => intro st id h; simp [dispatchTrace] at h
  | cons ev rest ih =>
    intro st id h
    unfold dispatchTrace at h
    by_cases hf : (st.srcs ev.1).fd = -1
    · rw [if_pos hf] at h
      simp only [List.map_cons]
      exact List.mem_cons_of_mem _ (ih st id h)
    · rw [if_neg hf] at h
      simp only [List.map_cons]
      rcases List.mem_cons.mp h with he | hm
      · subst he
        exact List.mem_cons_self _ _
      · exact List.mem_cons_of_mem _ (ih (runActs st ev.2) id hm)

/-- C10: `sink_dispatch` queries readiness with a fixed 32-entry event
array, so one pass retrieves at most the first 32 pending events and
dispatches at most 32 sources; every source whose callback runs in the
pass is among the first 32 reported, so sources beyond those are left
for a later pass; and the whole pass is the truncated event loop
followed by the reap loop. -/
theorem sink_dispatch_at_most_32 (st : RState n)
    (pending : List (Fin n × List (CbAct n))) :
    epollWait pending 32 = pending.take 32
    ∧ (dispatchTrace st (epollWait pending 32)).length ≤ 32
    ∧ (∀ id, id ∈ dispatchTrace st (epollWait pending 32) →
        id ∈ (pending.take 32).map Prod.fst)
    ∧ sink_dispatch_st st pending
        = reapPhase (dispatchPhase st (pending.take 32)) := by
  refine ⟨rfl, ?_, ?_, rfl⟩
  · calc (dispatchTrace st (epollWait pending 32)).length
        ≤ (epollWait pending 32).length := dispatchTrace_length _ st
      _ ≤ 32 := List.length_take_le _ _
  · intro id h
    exact dispatchTrace_mem _ st id h
